import Mathlib

/-!
Shallow embedding of utilities.py: text normalization helpers and elementary
numeric functions. Text is modelled as a list of Unicode code points
(List Nat); character classification is pinned to the fixed ASCII rule set,
as the design notes require for cross-language determinism. Python integers
are arbitrary precision, so numeric arguments are modelled as Lean Int;
a raised ValueError is modelled as Except.error.
-/

/-- ASCII uppercase letter test: codes 65..90 (A..Z). -/
def isUpperA (c : Nat) : Bool := decide (65 ≤ c ∧ c ≤ 90)

/-- ASCII lowercase letter test: codes 97..122 (a..z). -/
def isLowerA (c : Nat) : Bool := decide (97 ≤ c ∧ c ≤ 122)

/-- ASCII alphanumeric test: digit 48..57, upper 65..90, lower 97..122. -/
def isAlnumA (c : Nat) : Bool :=
  decide ((48 ≤ c ∧ c ≤ 57) ∨ (65 ≤ c ∧ c ≤ 90) ∨ (97 ≤ c ∧ c ≤ 122))

/-- Lowercase a code point: an ASCII uppercase letter moves down by 32
(so 65 becomes 97); every other code point is unchanged. -/
def toLowerA (c : Nat) : Nat := if isUpperA c then c + 32 else c

/-- Uppercase a code point: an ASCII lowercase letter moves up by 32;
every other code point is unchanged. -/
def toUpperA (c : Nat) : Nat := if isLowerA c then c - 32 else c

/-- Membership in Python's string.punctuation, the 32 ASCII punctuation
characters: codes 33..47, 58..64, 91..96, 123..126. -/
def isPunctuation (c : Nat) : Bool :=
  decide ((33 ≤ c ∧ c ≤ 47) ∨ (58 ≤ c ∧ c ≤ 64) ∨
    (91 ≤ c ∧ c ≤ 96) ∨ (123 ≤ c ∧ c ≤ 126))

/-- remove_punctuation from utilities.py: str.translate with a table deleting
every character of string.punctuation keeps exactly the non-punctuation
characters, in order. -/
def remove_punctuation (t : List Nat) : List Nat :=
  t.filter (fun c => ! isPunctuation c)

/-- The cleaning step of is_palindrome: remove punctuation, drop every space
character (code 32, what str.replace of a single space removes), then
lowercase. -/
def palClean (t : List Nat) : List Nat :=
  ((remove_punctuation t).filter (fun c => c != 32)).map toLowerA

/-- is_palindrome from utilities.py: clean the text, then compare it with
its own reverse. -/
def is_palindrome (t : List Nat) : Bool :=
  palClean t == (palClean t).reverse

/-- ASCII whitespace test, for comparison with the cleaning actually done by
is_palindrome: tab 9, line feed 10, vertical tab 11, form feed 12,
carriage return 13, space 32. -/
def isSpaceA (c : Nat) : Bool :=
  decide (c = 9 ∨ c = 10 ∨ c = 11 ∨ c = 12 ∨ c = 13 ∨ c = 32)

/-- Alternative cleaning that drops ALL ASCII whitespace, stated from the
claim's words for comparison with palClean (which drops only code 32). -/
def palCleanAllWs (t : List Nat) : List Nat :=
  ((remove_punctuation t).filter (fun c => ! isSpaceA c)).map toLowerA

/-- The failure of fibonacci and factorial on a negative argument: Python's
ValueError, the single InvalidArgument condition of the library. -/
inductive PyErr : Type
  | valueError : PyErr
deriving DecidableEq

/-- The accumulator pair of fibonacci's loop: starting from (0, 1), each of
the n iterations replaces (a, b) with (b, a + b). -/
def fibPair : Nat → Int × Int
  | 0 => (0, 1)
  | n + 1 => ((fibPair n).2, (fibPair n).1 + (fibPair n).2)

/-- fibonacci from utilities.py: raise ValueError when n is negative,
otherwise run the two-accumulator loop n times from (0, 1) and return the
first accumulator. -/
def fibonacci (n : Int) : Except PyErr Int :=
  if n < 0 then .error .valueError else .ok (fibPair n.toNat).1

/-- factorial from utilities.py: raise ValueError when n is negative,
otherwise multiply result (starting at 1) by each i in range(2, n + 1),
i.e. by the (n - 1).toNat integers 2, 3, ..., n. -/
def factorial (n : Int) : Except PyErr Int :=
  if n < 0 then .error .valueError
  else .ok ((List.range' 2 (n - 1).toNat).foldl
    (fun (r : Int) (i : Nat) => r * (i : Int)) 1)

/-- One step of to_camel_case's scanning loop over (parts, current): an
alphanumeric character extends the current token; any other character closes
the current token (appending it to parts when nonempty). -/
def camelStep : (List (List Nat) × List Nat) → Nat → (List (List Nat) × List Nat)
  | (parts, current), ch =>
    if isAlnumA ch then (parts, current ++ [ch])
    else if current = [] then (parts, []) else (parts ++ [current], [])

/-- The token list of to_camel_case: run the scanning loop, then append the
final current token when nonempty. -/
def camelParts (t : List Nat) : List (List Nat) :=
  match t.foldl camelStep ([], []) with
  | (parts, current) => if current = [] then parts else parts ++ [current]

/-- Python str.capitalize on ASCII: first character uppercased, the rest
lowercased. -/
def capitalizeA : List Nat → List Nat
  | [] => []
  | c :: cs => toUpperA c :: cs.map toLowerA

/-- to_camel_case from utilities.py: split into maximal alphanumeric runs,
lowercase the first run, capitalize each later run, concatenate. -/
def to_camel_case (t : List Nat) : List Nat :=
  match camelParts t with
  | [] => []
  | first :: rest => first.map toLowerA ++ (rest.map capitalizeA).flatten

/-- The guard of to_snake_case's separator branch: the emitted result is
nonempty and its last character is not an underscore (code 95). -/
def lastNotUnderscore (r : List Nat) : Bool :=
  match r.getLast? with
  | some c => c != 95
  | none => false

/-- One step of to_snake_case's loop over (result, prevLower). A space (32)
or hyphen (45) emits an underscore under the lastNotUnderscore guard; an
ASCII uppercase letter emits an underscore when prevLower holds, then its
lowercased form; anything else is emitted unchanged and sets prevLower. -/
def snakeStep : (List Nat × Bool) → Nat → (List Nat × Bool)
  | (result, prevLower), c =>
    if c = 32 ∨ c = 45 then
      (if lastNotUnderscore result then result ++ [95] else result, false)
    else if isUpperA c then
      ((if prevLower then result ++ [95] else result) ++ [toLowerA c], false)
    else (result ++ [c], true)

/-- Python str.strip of a single underscore: remove leading and trailing
underscores (code 95). -/
def stripUnd (l : List Nat) : List Nat :=
  ((l.dropWhile (fun c => c == 95)).reverse.dropWhile (fun c => c == 95)).reverse

/-- to_snake_case from utilities.py: run the loop from an empty result with
prevLower false, then strip leading and trailing underscores. -/
def to_snake_case (t : List Nat) : List Nat :=
  stripUnd (t.foldl snakeStep ([], false)).1

/-- The 6k plus or minus 1 trial-division loop of is_prime: while i*i <= n,
return false when i or i + 2 divides n, else advance i by 6; return true
when the loop ends. -/
def primeLoop (n : Int) (i : Int) : Bool :=
  if h : i * i ≤ n then
    if n % i = 0 ∨ n % (i + 2) = 0 then false
    else primeLoop n (i + 6)
  else true
termination_by (n + 1 - i).toNat
decreasing_by
  have hin : i ≤ n := by
    rcases le_or_lt i 0 with h0 | h1
    · have := mul_self_nonneg i
      omega
    · have : i * 1 ≤ i * i := by
        apply mul_le_mul_of_nonneg_left h1
        omega
      omega
  omega

/-- is_prime from utilities.py: false for n at most 1, true for 2 and 3,
false for multiples of 2 or 3, else the trial-division loop from i = 5. -/
def is_prime (n : Int) : Bool :=
  if n ≤ 1 then false
  else if n ≤ 3 then true
  else if n % 2 = 0 ∨ n % 3 = 0 then false
  else primeLoop n 5

/-- C4: remove_punctuation deletes exactly the ASCII punctuation characters:
no punctuation survives, the output is a subsequence of the input, every
occurrence of a non-punctuation character is kept (counts preserved), and
the operation is idempotent. -/
theorem remove_punctuation_spec (t : List Nat) :
    (∀ c ∈ remove_punctuation t, isPunctuation c = false) ∧
    List.Sublist (remove_punctuation t) t ∧
    (∀ c : Nat, isPunctuation c = false →
      (remove_punctuation t).count c = t.count c) ∧
    remove_punctuation (remove_punctuation t) = remove_punctuation t := by
  refine ⟨?_, ?_, ?_, ?_⟩
  · intro c hc
    have := List.of_mem_filter hc
    simpa using this
  · exact List.filter_sublist t
  · intro c hc
    rw [remove_punctuation, List.count_filter]
    simp [hc]
  · rw [remove_punctuation, remove_punctuation, List.filter_filter]
    congr 1
    funext c
    cases h : isPunctuation c <;> simp [h]

/-- Witness for C4 at the text "Hi, there!". -/
theorem remove_punctuation_spec_witness :
    (∀ c ∈ remove_punctuation [72, 105, 44, 32, 116, 104, 101, 114, 101, 33],
      isPunctuation c = false) ∧
    remove_punctuation [72, 105, 44, 32, 116, 104, 101, 114, 101, 33] =
      [72, 105, 32, 116, 104, 101, 114, 101] :=
  ⟨(remove_punctuation_spec [72, 105, 44, 32, 116, 104, 101, 114, 101, 33]).1,
    by decide⟩

/-- Cleaning commutes with reversal: filters and character maps are
pointwise, so they distribute over List.reverse. -/
theorem palClean_reverse (t : List Nat) :
    palClean t.reverse = (palClean t).reverse := by
  rw [palClean, palClean, remove_punctuation, remove_punctuation,
    List.filter_reverse, List.filter_reverse, List.map_reverse]

/-- C7: is_palindrome is invariant under reversing its input, because the
cleaning step commutes with reversal and equality with one's own reverse is
a symmetric test. -/
theorem is_palindrome_reverse (t : List Nat) :
    is_palindrome t.reverse = is_palindrome t := by
  rw [is_palindrome, is_palindrome, palClean_reverse, List.reverse_reverse]
  cases h : palClean t == (palClean t).reverse
  · simp only [beq_eq_false_iff_ne, ne_eq] at h ⊢
    intro hrev
    exact h hrev.symm
  · simp only [beq_iff_eq] at h ⊢
    exact h.symm

/-- C9: the cleaning drops only the space character 32, so a tab (code 9)
survives and takes part in the reverse comparison: on the text
"a bb&lt;tab&gt;a" (codes 97 32 98 98 9 97) is_palindrome answers false, even
though the same text cleaned of ALL ASCII whitespace is a palindrome, and
the tab is indeed still present after the actual cleaning. -/
theorem is_palindrome_tab_kept :
    is_palindrome [97, 32, 98, 98, 9, 97] = false ∧
    palCleanAllWs [97, 32, 98, 98, 9, 97] =
      (palCleanAllWs [97, 32, 98, 98, 9, 97]).reverse ∧
    9 ∈ palClean [97, 32, 98, 98, 9, 97] := by
  decide

/-- The loop pair holds two consecutive Fibonacci numbers. -/
theorem fibPair_eq (n : Nat) :
    fibPair n = ((Nat.fib n : Int), (Nat.fib (n + 1) : Int)) := by
  induction n with
  | zero => simp [fibPair]
  | succ k ih =>
    have hk : k + 1 + 1 = k + 2 := rfl
    rw [fibPair, ih, hk, @Nat.fib_add_two k]
    simp only [Prod.mk.injEq]
    refine ⟨trivial, ?_⟩
    push_cast
    ring

/-- For a nonnegative argument, fibonacci returns the mathematical
Fibonacci number. -/
theorem fibonacci_ok (n : Int) (h : 0 ≤ n) :
    fibonacci n = .ok (Nat.fib n.toNat : Int) := by
  rw [fibonacci, if_neg (by omega), fibPair_eq]

/-- Folding the multiplication over range' 2 k computes (k + 1)!. -/
theorem factFold_eq (k : Nat) :
    (List.range' 2 k).foldl (fun (r : Int) (i : Nat) => r * (i : Int)) 1 =
      (Nat.factorial (k + 1) : Int) := by
  induction k with
  | zero => simp [Nat.factorial]
  | succ m ih =>
    rw [List.range'_concat, List.foldl_append, ih]
    simp only [List.foldl_cons, List.foldl_nil]
    rw [Nat.factorial_succ (m + 1)]
    push_cast
    ring

/-- For a nonnegative argument, factorial returns the mathematical
factorial. -/
theorem factorial_ok (n : Int) (h : 0 ≤ n) :
    factorial n = .ok (Nat.factorial n.toNat : Int) := by
  rw [factorial, if_neg (by omega)]
  rcases Int.le_iff_lt_or_eq.mp h with hpos | hzero
  · have h1 : (n - 1).toNat + 1 = n.toNat := by omega
    rw [factFold_eq, h1]
  · rw [← hzero]
    simp [Nat.factorial]

/-- C2: fibonacci(0) = 0, fibonacci(1) = 1, for every n at least 2 the
result satisfies the Fibonacci recurrence, and for every nonnegative n the
iterative loop returns the mathematical Fibonacci number. -/
theorem fibonacci_spec :
    fibonacci 0 = .ok 0 ∧ fibonacci 1 = .ok 1 ∧
    (∀ n : Int, 2 ≤ n → ∃ a b c : Int,
      fibonacci n = .ok a ∧ fibonacci (n - 1) = .ok b ∧
      fibonacci (n - 2) = .ok c ∧ a = b + c) ∧
    (∀ n : Int, 0 ≤ n → fibonacci n = .ok (Nat.fib n.toNat : Int)) := by
  refine ⟨rfl, rfl, ?_, fun n h => fibonacci_ok n h⟩
  intro n hn
  refine ⟨(Nat.fib n.toNat : Int), (Nat.fib (n - 1).toNat : Int),
    (Nat.fib (n - 2).toNat : Int), fibonacci_ok n (by omega),
    fibonacci_ok (n - 1) (by omega), fibonacci_ok (n - 2) (by omega), ?_⟩
  obtain ⟨k, hk⟩ : ∃ k : Nat, n.toNat = k + 2 := ⟨n.toNat - 2, by omega⟩
  have h1 : (n - 1).toNat = k + 1 := by omega
  have h2 : (n - 2).toNat = k := by omega
  rw [hk, h1, h2, Nat.fib_add_two]
  push_cast
  ring

/-- Witness for C2 at n = 3. -/
theorem fibonacci_spec_witness : fibonacci 3 = .ok 2 :=
  (fibonacci_spec.2.2.2 3 (by decide)).trans rfl

/-- C3: fibonacci and factorial fail with the library's single ValueError
condition exactly on negative arguments; the embedded text functions are
total Lean functions, mirroring Python code with no raise path. -/
theorem invalid_argument_spec :
    (∀ n : Int, fibonacci n = .error .valueError ↔ n < 0) ∧
    (∀ n : Int, factorial n = .error .valueError ↔ n < 0) := by
  constructor
  · intro n
    rw [fibonacci]
    by_cases h : n < 0
    · simp [h]
    · simp [h]
  · intro n
    rw [factorial]
    by_cases h : n < 0
    · simp [h]
    · simp [h]

/-- Witness for C3 at n = -1 and n = 2. -/
theorem invalid_argument_spec_witness :
    fibonacci (-1) = .error .valueError ∧
    ¬ factorial 2 = .error .valueError :=
  ⟨(invalid_argument_spec.1 (-1)).mpr (by decide),
    fun h => absurd ((invalid_argument_spec.2 2).mp h) (by decide)⟩

/-- The product of the integers 2..m inclusive is m!. -/
theorem prod_Icc_two_eq_factorial (m : Nat) :
    ∏ i in Finset.Icc 2 m, (i : Int) = (Nat.factorial m : Int) := by
  induction m with
  | zero =>
    rw [Finset.Icc_eq_empty (by omega), Finset.prod_empty]
    norm_num [Nat.factorial]
  | succ k ih =>
    rcases Nat.eq_zero_or_pos k with hk | hk
    · subst hk
      rw [Finset.Icc_eq_empty (by omega), Finset.prod_empty]
      norm_num [Nat.factorial]
    · rw [Finset.prod_Icc_succ_top (by omega), ih, Nat.factorial_succ]
      push_cast
      ring

/-- C8: factorial(0) = 1, for every n at least 1 the result is the product
of the integers 2..n inclusive, and factorial(5) = 120. -/
theorem factorial_spec :
    factorial 0 = .ok 1 ∧
    (∀ n : Int, 1 ≤ n →
      factorial n = .ok (∏ i in Finset.Icc 2 n.toNat, (i : Int))) ∧
    factorial 5 = .ok 120 := by
  refine ⟨rfl, ?_, ?_⟩
  · intro n hn
    rw [factorial_ok n (by omega), prod_Icc_two_eq_factorial]
  · exact (factorial_ok 5 (by decide)).trans rfl

/-- Witness for C8 at n = 4. -/
theorem factorial_spec_witness : factorial 4 = .ok 24 := by
  rw [factorial_spec.2.1 4 (by decide), prod_Icc_two_eq_factorial]
  rfl

/-- C10: with Python's arbitrary-precision integers (embedded as Int) both
functions return the exact mathematical value for every nonnegative n; no
overflow, wrapping or saturation exists in the model. -/
theorem exact_arithmetic_spec (n : Int) (h : 0 ≤ n) :
    fibonacci n = .ok (Nat.fib n.toNat : Int) ∧
    factorial n = .ok (Nat.factorial n.toNat : Int) :=
  ⟨fibonacci_ok n h, factorial_ok n h⟩

/-- Witness for C10 at n = 10. -/
theorem exact_arithmetic_spec_witness :
    fibonacci 10 = .ok 55 ∧ factorial 10 = .ok 3628800 :=
  ⟨(exact_arithmetic_spec 10 (by decide)).1.trans rfl,
    (exact_arithmetic_spec 10 (by decide)).2.trans rfl⟩

/-- Lowercasing keeps alphanumeric characters alphanumeric. -/
theorem isAlnumA_toLowerA {c : Nat} (h : isAlnumA c = true) :
    isAlnumA (toLowerA c) = true := by
  rw [toLowerA]
  cases hc : isUpperA c
  · simp only [hc, Bool.false_eq_true, if_false]
    exact h
  · simp only [hc, if_true]
    simp only [isAlnumA, isUpperA, decide_eq_true_eq] at hc ⊢
    omega

/-- Uppercasing keeps alphanumeric characters alphanumeric. -/
theorem isAlnumA_toUpperA {c : Nat} (h : isAlnumA c = true) :
    isAlnumA (toUpperA c) = true := by
  rw [toUpperA]
  cases hc : isLowerA c
  · simp only [hc, Bool.false_eq_true, if_false]
    exact h
  · simp only [hc, if_true]
    simp only [isAlnumA, isLowerA, decide_eq_true_eq] at hc ⊢
    omega

/-- A lowercased character is never an ASCII uppercase letter. -/
theorem isUpperA_toLowerA (c : Nat) : isUpperA (toLowerA c) = false := by
  rw [toLowerA]
  cases hc : isUpperA c
  · simp only [hc, Bool.false_eq_true, if_false]
  · simp only [hc, if_true]
    simp only [isUpperA, decide_eq_true_eq] at hc
    simp only [isUpperA, decide_eq_false_iff_not]
    omega

/-- Loop invariant of to_camel_case's scan: every accumulated token is a
nonempty run of alphanumeric characters, and the current run is
alphanumeric. -/
theorem camelFold_inv (t : List Nat) :
    ∀ (parts : List (List Nat)) (current : List Nat),
    (∀ p ∈ parts, p ≠ [] ∧ ∀ c ∈ p, isAlnumA c = true) →
    (∀ c ∈ current, isAlnumA c = true) →
    (∀ p ∈ (t.foldl camelStep (parts, current)).1,
        p ≠ [] ∧ ∀ c ∈ p, isAlnumA c = true) ∧
    (∀ c ∈ (t.foldl camelStep (parts, current)).2, isAlnumA c = true) := by
  induction t with
  | nil =>
    intro parts current hp hc
    exact ⟨hp, hc⟩
  | cons ch rest ih =>
    intro parts current hp hc
    rw [List.foldl_cons, camelStep]
    cases ha : isAlnumA ch
    · simp only [ha, Bool.false_eq_true, if_false]
      by_cases hcur : current = []
      · rw [if_pos hcur]
        exact ih parts [] hp (by simp)
      · rw [if_neg hcur]
        refine ih (parts ++ [current]) [] ?_ (by simp)
        intro p hpmem
        rcases List.mem_append.mp hpmem with h1 | h1
        · exact hp p h1
        · have : p = current := by simpa using h1
          subst this
          exact ⟨hcur, hc⟩
    · simp only [ha, if_true]
      refine ih parts (current ++ [ch]) hp ?_
      intro c hcm
      rcases List.mem_append.mp hcm with h1 | h1
      · exact hc c h1
      · have : c = ch := by simpa using h1
        subst this
        exact ha

/-- Every token produced by camelParts is a nonempty alphanumeric run. -/
theorem camelParts_inv (t : List Nat) :
    ∀ p ∈ camelParts t, p ≠ [] ∧ ∀ c ∈ p, isAlnumA c = true := by
  obtain ⟨h1, h2⟩ := camelFold_inv t [] [] (by simp) (by simp)
  rcases hfold : t.foldl camelStep ([], []) with ⟨parts, current⟩
  rw [hfold] at h1 h2
  rw [camelParts, hfold]
  dsimp only
  by_cases hcur : current = []
  · rw [if_pos hcur]
    exact h1
  · rw [if_neg hcur]
    intro p hpmem
    rcases List.mem_append.mp hpmem with hm | hm
    · exact h1 p hm
    · have : p = current := by simpa using hm
      subst this
      exact ⟨hcur, h2⟩

/-- C6 counterexample: on the text "1a" (codes 49 97) the first character of
to_camel_case's output is the digit 49, which is not a lowercase letter. -/
theorem to_camel_case_counterexample :
    to_camel_case [49, 97] = [49, 97] ∧
    (to_camel_case [49, 97]).head? = some 49 ∧ isLowerA 49 = false := by
  decide

/-- C6 amended: to_camel_case emits only alphanumeric characters (no
separators), and its first character, when the result is nonempty, is never
an ASCII uppercase letter (it is lowercase whenever it is a letter). -/
theorem to_camel_case_amended (t : List Nat) :
    (∀ c ∈ to_camel_case t, isAlnumA c = true) ∧
    (∀ c : Nat, (to_camel_case t).head? = some c → isUpperA c = false) := by
  have hinv := camelParts_inv t
  rw [to_camel_case]
  rcases hparts : camelParts t with _ | ⟨first, rest⟩
  · exact ⟨by simp, by simp⟩
  · rw [hparts] at hinv
    have hfirst := hinv first (by simp)
    constructor
    · intro c hcm
      rcases List.mem_append.mp hcm with h1 | h1
      · rcases List.mem_map.mp h1 with ⟨a, ha, rfl⟩
        exact isAlnumA_toLowerA (hfirst.2 a ha)
      · rcases List.mem_flatten.mp h1 with ⟨l, hl, hcl⟩
        rcases List.mem_map.mp hl with ⟨p, hpm, rfl⟩
        have hpinv := hinv p (by simp [hpm])
        rcases p with _ | ⟨x, xs⟩
        · exact absurd rfl hpinv.1
        · rw [capitalizeA] at hcl
          rcases List.mem_cons.mp hcl with rfl | hmem
          · exact isAlnumA_toUpperA (hpinv.2 x (by simp))
          · rcases List.mem_map.mp hmem with ⟨a, ha, rfl⟩
            exact isAlnumA_toLowerA (hpinv.2 a (by simp [ha]))
    · intro c hc
      rcases first with _ | ⟨x, xs⟩
      · exact absurd rfl hfirst.1
      · simp only [List.map_cons, List.cons_append, List.head?_cons,
          Option.some.injEq] at hc
        rw [← hc]
        exact isUpperA_toLowerA x

/-- Witness for the amended C6 at the text "hello world". -/
theorem to_camel_case_amended_witness :
    (to_camel_case [104, 101, 108, 108, 111, 32, 119, 111, 114, 108, 100]).head?
      = some 104 ∧ isUpperA 104 = false :=
  ⟨by decide,
    (to_camel_case_amended
      [104, 101, 108, 108, 111, 32, 119, 111, 114, 108, 100]).2 104 (by decide)⟩

/-- A lowercased ASCII uppercase letter lands in 97..122, so it is not an
underscore. -/
theorem toLowerA_ne_95 {c : Nat} (h : isUpperA c = true) : toLowerA c ≠ 95 := by
  rw [toLowerA, if_pos h]
  simp only [isUpperA, decide_eq_true_eq] at h
  omega

/-- Loop invariant of to_snake_case: the emitted result never contains an
ASCII uppercase letter. -/
theorem snakeFold_noUpper (t : List Nat) :
    ∀ (result : List Nat) (prev : Bool),
    (∀ c ∈ result, isUpperA c = false) →
    ∀ c ∈ (t.foldl snakeStep (result, prev)).1, isUpperA c = false := by
  induction t with
  | nil =>
    intro result prev hr
    exact hr
  | cons ch rest ih =>
    intro result prev hr
    rw [List.foldl_cons, snakeStep]
    by_cases hsep : ch = 32 ∨ ch = 45
    · rw [if_pos hsep]
      apply ih
      by_cases hlast : lastNotUnderscore result = true
      · rw [if_pos hlast]
        intro c hcm
        rcases List.mem_append.mp hcm with h1 | h1
        · exact hr c h1
        · have : c = 95 := by simpa using h1
          subst this
          decide
      · rw [if_neg hlast]
        exact hr
    · rw [if_neg hsep]
      cases hup : isUpperA ch
      · simp only [hup, Bool.false_eq_true, if_false]
        apply ih
        intro c hcm
        rcases List.mem_append.mp hcm with h1 | h1
        · exact hr c h1
        · have : c = ch := by simpa using h1
          subst this
          exact hup
      · simp only [hup, if_true]
        apply ih
        intro c hcm
        rcases List.mem_append.mp hcm with h1 | h1
        · by_cases hp : prev = true
          · rw [if_pos hp] at h1
            rcases List.mem_append.mp h1 with h2 | h2
            · exact hr c h2
            · have : c = 95 := by simpa using h2
              subst this
              decide
          · rw [if_neg hp] at h1
            exact hr c h1
        · have : c = toLowerA ch := by simpa using h1
          subst this
          exact isUpperA_toLowerA ch

/-- Appending one element to a chain stays a chain when the link from the
old last element holds. -/
theorem chain'_snoc {R : Nat → Nat → Prop} {l : List Nat} {b : Nat}
    (h1 : List.Chain' R l) (h2 : ∀ x, l.getLast? = some x → R x b) :
    List.Chain' R (l ++ [b]) := by
  rw [List.chain'_append]
  refine ⟨h1, List.chain'_singleton b, ?_⟩
  intro x hx y hy
  simp only [List.head?_cons, Option.mem_def, Option.some.injEq] at hy
  rw [Option.mem_def] at hx
  subst hy
  exact h2 x hx

/-- lastNotUnderscore unfolded: the last emitted character exists and is
not an underscore. -/
theorem lastNotUnderscore_iff (r : List Nat) :
    lastNotUnderscore r = true ↔ ∃ x, r.getLast? = some x ∧ x ≠ 95 := by
  rw [lastNotUnderscore]
  cases hg : r.getLast? with
  | none => simp
  | some c => simp [bne_iff_ne]

/-- Loop invariant of to_snake_case on inputs without underscores: the
emitted result has no two consecutive underscores, and whenever prevLower
holds the last emitted character is not an underscore. -/
theorem snakeFold_chain (t : List Nat) (h95 : 95 ∉ t) :
    ∀ (result : List Nat) (prev : Bool),
    List.Chain' (fun a b => ¬(a = 95 ∧ b = 95)) result →
    (prev = true → lastNotUnderscore result = true) →
    List.Chain' (fun a b => ¬(a = 95 ∧ b = 95))
      (t.foldl snakeStep (result, prev)).1 := by
  induction t with
  | nil =>
    intro result prev hch hpl
    exact hch
  | cons ch rest ih =>
    intro result prev hch hpl
    have hch95 : ch ≠ 95 := fun he => h95 (by simp [he])
    have hrest : 95 ∉ rest := fun he => h95 (by simp [he])
    rw [List.foldl_cons, snakeStep]
    by_cases hsep : ch = 32 ∨ ch = 45
    · rw [if_pos hsep]
      apply ih hrest
      · by_cases hlast : lastNotUnderscore result = true
        · rw [if_pos hlast]
          apply chain'_snoc hch
          intro x hx
          obtain ⟨x0, hg, hne⟩ := (lastNotUnderscore_iff result).mp hlast
          rw [hg, Option.some.injEq] at hx
          subst hx
          rintro ⟨hx95, _⟩
          exact hne hx95
        · rw [if_neg hlast]
          exact hch
      · intro h
        exact absurd h (by simp)
    · rw [if_neg hsep]
      cases hup : isUpperA ch
      · simp only [hup, Bool.false_eq_true, if_false]
        apply ih hrest
        · apply chain'_snoc hch
          intro x hx
          rintro ⟨_, h2⟩
          exact hch95 h2
        · intro _
          rw [lastNotUnderscore_iff]
          exact ⟨ch, List.getLast?_concat result, hch95⟩
      · simp only [hup, if_true]
        have hlow95 : toLowerA ch ≠ 95 := toLowerA_ne_95 hup
        apply ih hrest
        · by_cases hp : prev = true
          · rw [if_pos hp]
            obtain ⟨x0, hg, hne⟩ := (lastNotUnderscore_iff result).mp (hpl hp)
            apply chain'_snoc
            · apply chain'_snoc hch
              intro x hx
              rw [hg, Option.some.injEq] at hx
              subst hx
              rintro ⟨h1, _⟩
              exact hne h1
            · intro x hx
              rw [List.getLast?_concat, Option.some.injEq] at hx
              subst hx
              rintro ⟨_, h2⟩
              exact hlow95 h2
          · rw [if_neg hp]
            apply chain'_snoc hch
            intro x hx
            rintro ⟨_, h2⟩
            exact hlow95 h2
        · intro _
          rw [lastNotUnderscore_iff]
          exact ⟨toLowerA ch, List.getLast?_concat _, hlow95⟩

/-- Membership survives stripUnd: stripped output characters come from the
input. -/
theorem mem_stripUnd {c : Nat} {l : List Nat} (h : c ∈ stripUnd l) : c ∈ l := by
  rw [stripUnd, List.mem_reverse] at h
  have h2 := (List.dropWhile_sublist (fun c => c == 95)).subset h
  rw [List.mem_reverse] at h2
  exact (List.dropWhile_sublist (fun c => c == 95)).subset h2

/-- A nonempty dropWhile keeps the last element of the list. -/
theorem getLast?_dropWhile_of_ne_nil (p : Nat → Bool) :
    ∀ l : List Nat, l.dropWhile p ≠ [] →
      (l.dropWhile p).getLast? = l.getLast? := by
  intro l
  induction l with
  | nil =>
    intro h
    simp at h
  | cons x xs ih =>
    intro h
    rw [List.dropWhile_cons] at h ⊢
    cases hp : p x
    · simp only [hp, Bool.false_eq_true, if_false]
    · simp only [hp, if_true] at h ⊢
      rw [ih h]
      have hxs : xs ≠ [] := by
        intro he
        subst he
        simp at h
      rcases xs with _ | ⟨y, ys⟩
      · exact absurd rfl hxs
      · rw [List.getLast?_cons_cons]

/-- The last character of a stripped result is never an underscore. -/
theorem stripUnd_getLast (l : List Nat) :
    ∀ x : Nat, (stripUnd l).getLast? = some x → x ≠ 95 := by
  intro x hx
  rw [stripUnd, List.getLast?_reverse] at hx
  have h := List.head?_dropWhile_not (fun c => c == 95)
    (l.dropWhile (fun c => c == 95)).reverse
  rw [hx] at h
  simpa using h

/-- The first character of a stripped result is never an underscore. -/
theorem stripUnd_head (l : List Nat) :
    ∀ x : Nat, (stripUnd l).head? = some x → x ≠ 95 := by
  intro x hx
  rw [stripUnd, List.head?_reverse] at hx
  by_cases hM : (l.dropWhile (fun c => c == 95)).reverse.dropWhile
      (fun c => c == 95) = []
  · rw [hM] at hx
    simp at hx
  · rw [getLast?_dropWhile_of_ne_nil _ _ hM, List.getLast?_reverse] at hx
    have h := List.head?_dropWhile_not (fun c => c == 95) l
    rw [hx] at h
    simpa using h

/-- Reversal preserves a chain of a symmetric relation. -/
theorem chain_reverse_of {R : Nat → Nat → Prop}
    (hsym : ∀ a b, R a b → R b a) {l : List Nat}
    (h : List.Chain' R l) : List.Chain' R l.reverse :=
  List.chain'_reverse.mpr (h.imp fun a b hr => hsym a b hr)

/-- stripUnd preserves a chain of a symmetric relation: both dropWhile
passes keep contiguous suffixes and reversal flips the symmetric links. -/
theorem chain_stripUnd {R : Nat → Nat → Prop}
    (hsym : ∀ a b, R a b → R b a) {l : List Nat}
    (h : List.Chain' R l) : List.Chain' R (stripUnd l) := by
  rw [stripUnd]
  apply chain_reverse_of hsym
  apply List.Chain'.suffix _ (List.dropWhile_suffix _)
  apply chain_reverse_of hsym
  exact h.suffix (List.dropWhile_suffix _)

/-- C5: to_snake_case emits no ASCII uppercase letter, never starts or ends
with an underscore, and on inputs containing no underscore it never emits
two consecutive underscores. -/
theorem to_snake_case_spec (t : List Nat) :
    (∀ c ∈ to_snake_case t, isUpperA c = false) ∧
    (∀ x : Nat, (to_snake_case t).head? = some x → x ≠ 95) ∧
    (∀ x : Nat, (to_snake_case t).getLast? = some x → x ≠ 95) ∧
    (95 ∉ t → List.Chain' (fun a b => ¬(a = 95 ∧ b = 95)) (to_snake_case t)) := by
  refine ⟨?_, stripUnd_head _, stripUnd_getLast _, ?_⟩
  · intro c hcm
    exact snakeFold_noUpper t [] false (by simp) c (mem_stripUnd hcm)
  · intro h95
    have hch := snakeFold_chain t h95 [] false List.chain'_nil
      (by intro h; simp at h)
    exact chain_stripUnd (fun a b hr hba => hr ⟨hba.2, hba.1⟩) hch

/-- Witness for C5 at the text "Hello World". -/
theorem to_snake_case_spec_witness :
    (95 ∉ ([72, 101, 108, 108, 111, 32, 87, 111, 114, 108, 100] : List Nat)) ∧
    List.Chain' (fun a b => ¬(a = 95 ∧ b = 95))
      (to_snake_case [72, 101, 108, 108, 111, 32, 87, 111, 114, 108, 100]) ∧
    to_snake_case [72, 101, 108, 108, 111, 32, 87, 111, 114, 108, 100] =
      [104, 101, 108, 108, 111, 95, 119, 111, 114, 108, 100] :=
  ⟨by decide,
    (to_snake_case_spec
      [72, 101, 108, 108, 111, 32, 87, 111, 114, 108, 100]).2.2.2 (by decide),
    by decide⟩

/-- Soundness of the trial-division loop: for n at least 5 and i at least 5,
a false answer exhibits a nontrivial divisor of n. -/
theorem primeLoop_false_divisor (n : Int) :
    ∀ k : Nat, ∀ i : Int, (n + 1 - i).toNat ≤ k → 5 ≤ i →
      primeLoop n i = false → ∃ d : Int, 1 < d ∧ d < n ∧ d ∣ n := by
  intro k
  induction k with
  | zero =>
    intro i hk hi hfalse
    exfalso
    have hin : n + 1 ≤ i := by omega
    have hgt : ¬ (i * i ≤ n) := by
      intro hle
      have h1 : i * 1 ≤ i * i := mul_le_mul_of_nonneg_left (by omega) (by omega)
      linarith
    rw [primeLoop, dif_neg hgt] at hfalse
    simp at hfalse
  | succ m ih =>
    intro i hk hi hfalse
    rw [primeLoop] at hfalse
    by_cases hle : i * i ≤ n
    · rw [dif_pos hle] at hfalse
      have h5i : 5 * i ≤ i * i := mul_le_mul_of_nonneg_right hi (by omega)
      have h5n : 5 * i ≤ n := le_trans h5i hle
      by_cases hdiv : n % i = 0 ∨ n % (i + 2) = 0
      · rcases hdiv with hd | hd
        · exact ⟨i, by omega, by omega, Int.dvd_of_emod_eq_zero hd⟩
        · exact ⟨i + 2, by omega, by omega, Int.dvd_of_emod_eq_zero hd⟩
      · rw [if_neg hdiv] at hfalse
        have hin : i ≤ n := by omega
        exact ih (i + 6) (by omega) (by omega) hfalse
    · rw [dif_neg hle] at hfalse
      simp at hfalse

/-- Completeness of the trial-division loop: a true answer excludes every
divisor d congruent to 1 or 5 mod 6 with i <= d and d*d <= n, provided the
loop starts at a value congruent to 5 mod 6. -/
theorem primeLoop_true_no_divisor (n : Int) :
    ∀ k : Nat, ∀ i : Int, (n + 1 - i).toNat ≤ k → 5 ≤ i → i % 6 = 5 →
      primeLoop n i = true →
      ∀ d : Int, i ≤ d → d * d ≤ n → (d % 6 = 1 ∨ d % 6 = 5) → ¬ d ∣ n := by
  intro k
  induction k with
  | zero =>
    intro i hk hi hmod htrue d hid hdd hdmod hdvd
    have hin : n + 1 ≤ i := by omega
    have h1 : d * 1 ≤ d * d := mul_le_mul_of_nonneg_left (by omega) (by omega)
    linarith
  | succ m ih =>
    intro i hk hi hmod htrue d hid hdd hdmod hdvd
    rw [primeLoop] at htrue
    by_cases hle : i * i ≤ n
    · rw [dif_pos hle] at htrue
      by_cases hdiv : n % i = 0 ∨ n % (i + 2) = 0
      · rw [if_pos hdiv] at htrue
        simp at htrue
      · rw [if_neg hdiv] at htrue
        push_neg at hdiv
        by_cases hdi : d = i
        · subst hdi
          exact hdiv.1 (Int.emod_eq_zero_of_dvd hdvd)
        · by_cases hdi2 : d = i + 2
          · subst hdi2
            exact hdiv.2 (Int.emod_eq_zero_of_dvd hdvd)
          · have hd6 : i + 6 ≤ d := by omega
            have h5i : 5 * i ≤ i * i := mul_le_mul_of_nonneg_right hi (by omega)
            have hin : i ≤ n := by
              have := le_trans h5i hle
              omega
            exact ih (i + 6) (by omega) (by omega) (by omega) htrue d hd6 hdd
              hdmod hdvd
    · rw [dif_neg hle] at htrue
      have hsq : i * i ≤ d * d := mul_le_mul hid hid (by omega) (by omega)
      have hgt : n < i * i := lt_of_not_le hle
      linarith

/-- is_prime decides primality of the integer argument: true exactly when n
is at least 2 and n (as a natural number) is prime. -/
theorem is_prime_correct (n : Int) :
    is_prime n = true ↔ (2 ≤ n ∧ Nat.Prime n.toNat) := by
  rw [is_prime]
  by_cases h1 : n ≤ 1
  · rw [if_pos h1]
    constructor
    · intro h
      simp at h
    · rintro ⟨h2, _⟩
      omega
  · rw [if_neg h1]
    by_cases h3 : n ≤ 3
    · rw [if_pos h3]
      constructor
      · intro _
        refine ⟨by omega, ?_⟩
        have hn23 : n = 2 ∨ n = 3 := by omega
        rcases hn23 with rfl | rfl
        · decide
        · decide
      · intro _
        rfl
    · rw [if_neg h3]
      have h4 : 4 ≤ n := by omega
      by_cases h23 : n % 2 = 0 ∨ n % 3 = 0
      · rw [if_pos h23]
        constructor
        · intro h
          simp at h
        · rintro ⟨_, hp⟩
          exfalso
          rcases h23 with hd | hd
          · have hmod : n.toNat % 2 = 0 := by omega
            have hdvd2 : 2 ∣ n.toNat := Nat.dvd_of_mod_eq_zero hmod
            have := Nat.Prime.eq_one_or_self_of_dvd hp 2 hdvd2
            omega
          · have hmod : n.toNat % 3 = 0 := by omega
            have hdvd3 : 3 ∣ n.toNat := Nat.dvd_of_mod_eq_zero hmod
            have := Nat.Prime.eq_one_or_self_of_dvd hp 3 hdvd3
            omega
      · rw [if_neg h23]
        push_neg at h23
        obtain ⟨h2, h3'⟩ := h23
        have h5 : 5 ≤ n := by omega
        constructor
        · intro htrue
          refine ⟨by omega, ?_⟩
          rw [Nat.prime_def_le_sqrt]
          refine ⟨by omega, ?_⟩
          intro m hm hmsqrt hmdvd
          have hmm : m * m ≤ n.toNat := Nat.le_sqrt.mp hmsqrt
          have hm2 : m % 2 ≠ 0 := by
            intro hmod2
            obtain ⟨c, hc⟩ := dvd_trans (Nat.dvd_of_mod_eq_zero hmod2) hmdvd
            exact h2 (by omega)
          have hm3 : m % 3 ≠ 0 := by
            intro hmod3
            obtain ⟨c, hc⟩ := dvd_trans (Nat.dvd_of_mod_eq_zero hmod3) hmdvd
            exact h3' (by omega)
          have hm6 : m % 6 = 1 ∨ m % 6 = 5 := by omega
          have hm5 : 5 ≤ m := by omega
          have hcast : ((m : Int)) ∣ n := by
            obtain ⟨c, hc⟩ := hmdvd
            refine ⟨(c : Int), ?_⟩
            have hc2 := congrArg (fun x : Nat => (x : Int)) hc
            push_cast at hc2
            rwa [Int.toNat_of_nonneg (by omega : (0 : Int) ≤ n)] at hc2
          have hmmInt : (m : Int) * (m : Int) ≤ n := by
            have h' : ((m * m : Nat) : Int) ≤ ((n.toNat : Nat) : Int) :=
              Int.ofNat_le.mpr hmm
            push_cast at h'
            rwa [Int.toNat_of_nonneg (by omega : (0 : Int) ≤ n)] at h'
          exact primeLoop_true_no_divisor n ((n + 1 - 5).toNat) 5 le_rfl
            (by omega) (by decide) htrue (m : Int) (by exact_mod_cast hm5)
            hmmInt (by omega) hcast
        · rintro ⟨h2n, hp⟩
          cases hv : primeLoop n 5 with
          | true => rfl
          | false =>
            exfalso
            obtain ⟨d, hd1, hdn, hdvd⟩ :=
              primeLoop_false_divisor n ((n + 1 - 5).toNat) 5 le_rfl
                (by omega) hv
            have hdvdN : d.toNat ∣ n.toNat := by
              obtain ⟨c, hc⟩ := hdvd
              have hc0 : 0 < c := by
                by_contra hcc
                push_neg at hcc
                have hneg : d * c ≤ d * 0 :=
                  mul_le_mul_of_nonneg_left hcc (by omega)
                have hpos : 0 < d * c := by
                  rw [← hc]
                  omega
                simp at hneg
                linarith
              refine ⟨c.toNat, ?_⟩
              have hcast : ((d.toNat * c.toNat : Nat) : Int) = (n.toNat : Int) := by
                push_cast
                rw [Int.toNat_of_nonneg (by omega : (0 : Int) ≤ n),
                  Int.toNat_of_nonneg (by omega : (0 : Int) ≤ d),
                  Int.toNat_of_nonneg (by omega : (0 : Int) ≤ c)]
                exact hc.symm
              exact_mod_cast hcast.symm
            have := Nat.Prime.eq_one_or_self_of_dvd hp d.toNat hdvdN
            omega

/-- C1: is_prime answers true exactly on the (positive) prime numbers: false
for all n at most 1, and the 6k plus or minus 1 trial division finds a
divisor exactly when n is composite; in particular is_prime(2) = true,
is_prime(4) = false, is_prime(17) = true, is_prime(97) = true,
is_prime(100) = false. -/
theorem is_prime_spec :
    (∀ n : Int, is_prime n = true ↔ (2 ≤ n ∧ Nat.Prime n.toNat)) ∧
    is_prime 2 = true ∧ is_prime 4 = false ∧ is_prime 17 = true ∧
    is_prime 97 = true ∧ is_prime 100 = false := by
  have hfalse : ∀ n : Int, ¬(2 ≤ n ∧ Nat.Prime n.toNat) → is_prime n = false := by
    intro n h
    cases hv : is_prime n with
    | false => rfl
    | true => exact absurd ((is_prime_correct n).mp hv) h
  refine ⟨is_prime_correct, ?_, ?_, ?_, ?_, ?_⟩
  · exact (is_prime_correct 2).mpr ⟨by omega, by decide⟩
  · exact hfalse 4 (by decide)
  · exact (is_prime_correct 17).mpr ⟨by omega, by decide⟩
  · exact (is_prime_correct 97).mpr ⟨by omega, by decide⟩
  · exact hfalse 100 (by decide)
